import Mathlib

/-!
# Verification of the SongGio paginated-crawl scripts

Shallow embedding of the crawling scripts of this repository:

* `list_tthc.js` (dichvucong.gov.vn list crawl) — `ListTthc`
* `part_001` (`DecisionCrawler`, thutuc.dichvucong.gov.vn) — `DC`
* `crawler.js` (emohbackup.moh.gov.vn) — `Moh`
* `part_000` (vanban.chinhphu.vn detail fetch) — `VanBan`
* `decision_details.js` (`DecisionDetailCrawler`) — `DD`

Network is modelled as an explicit environment function from a page index
(or URL) to an optional response; `none` stands for a transport-level
failure (non-success status, network error, unparseable payload), i.e. a
rejected promise at the call site.  The filesystem, where needed, is a
list of existing file paths.
-/

/-! ## JavaScript `Map` insertion and the dedup step

`list_tthc.js` line 174-176 deduplicates with
`Array.from(new Map(allTTHC.map(item => [item.TTHC_MA, item])).values())`.
A JS `Map` keeps the position of a key at its first insertion and
overwrites the stored value on re-insertion; `values()` lists values in
key-insertion order.  `mapInsert` transcribes one `Map.set` on an
association-list view of the map. -/

def mapInsert {K α : Type} [DecidableEq K] (k : K) (v : α) :
    List (K × α) → List (K × α)
  | [] => [(k, v)]
  | (k', v') :: rest =>
      if k' = k then (k, v) :: rest else (k', v') :: mapInsert k v rest

/-- The JS `Map` built by `new Map(l.map(item => [key(item), item]))`:
a left fold of `Map.set` over the list. -/
def jsMapOf {K α : Type} [DecidableEq K] (key : α → K) (l : List α) :
    List (K × α) :=
  l.foldl (fun m r => mapInsert (key r) r m) []

/-- `Array.from(new Map(l.map(item => [key(item), item])).values())`:
the dedup step of `list_tthc.js` (line 174-176). -/
def dedupByKey {K α : Type} [DecidableEq K] (key : α → K) (l : List α) :
    List α :=
  (jsMapOf key l).map Prod.snd

/-- The keys of a list in order of first occurrence (the key order a JS
`Map` ends up with). -/
def firstKeys {K : Type} [DecidableEq K] : List K → List K
  | [] => []
  | k :: ks => k :: (firstKeys ks).filter (fun x => ¬ x = k)

/-! ### Basic lemmas about `mapInsert` and `firstKeys` -/

theorem mapInsert_map_fst {K α : Type} [DecidableEq K] (k : K) (v : α)
    (m : List (K × α)) :
    (mapInsert k v m).map Prod.fst =
      if k ∈ m.map Prod.fst then m.map Prod.fst else m.map Prod.fst ++ [k] := by
  induction m with
  | nil => simp [mapInsert]
  | cons p m ih =>
    obtain ⟨k', v'⟩ := p
    by_cases h : k' = k
    · subst h
      simp [mapInsert]
    · simp only [mapInsert, if_neg h, List.map_cons, ih]
      have h' : ¬ k = k' := fun hh => h hh.symm
      by_cases hk : k ∈ m.map Prod.fst
      · simp [hk, h']
      · simp [hk, h']

theorem mapInsert_append_of_not_mem {K α : Type} [DecidableEq K] (k : K) (v : α)
    (m : List (K × α)) (h : k ∉ m.map Prod.fst) :
    mapInsert k v m = m ++ [(k, v)] := by
  induction m with
  | nil => simp [mapInsert]
  | cons p m ih =>
    obtain ⟨k', v'⟩ := p
    simp only [List.map_cons, List.mem_cons] at h
    push_neg at h
    have hne : ¬ k' = k := fun hh => h.1 hh.symm
    simp [mapInsert, hne, ih h.2]

theorem mapInsert_cons_self {K α : Type} [DecidableEq K] (k : K) (v v' : α)
    (m : List (K × α)) :
    mapInsert k v ((k, v') :: m) = (k, v) :: m := by
  simp [mapInsert]

theorem mapInsert_cons_ne {K α : Type} [DecidableEq K] {k k' : K}
    (h : ¬ k' = k) (v v' : α) (m : List (K × α)) :
    mapInsert k v ((k', v') :: m) = (k', v') :: mapInsert k v m := by
  simp [mapInsert, h]

theorem mem_of_mem_mapInsert {K α : Type} [DecidableEq K] (k : K) (v : α) :
    ∀ (m : List (K × α)) (p : K × α), p ∈ mapInsert k v m →
      p = (k, v) ∨ p ∈ m := by
  intro m
  induction m with
  | nil => intro p h; simpa [mapInsert] using h
  | cons q m ih =>
    obtain ⟨k', v'⟩ := q
    intro p h
    by_cases hk : k' = k
    · subst hk
      rw [mapInsert_cons_self, List.mem_cons] at h
      rcases h with h | h
      · exact Or.inl h
      · exact Or.inr (List.mem_cons_of_mem _ h)
    · rw [mapInsert_cons_ne hk, List.mem_cons] at h
      rcases h with h | h
      · exact Or.inr (by simp [h])
      · rcases ih p h with h' | h'
        · exact Or.inl h'
        · exact Or.inr (by simp [h'])

theorem mem_firstKeys {K : Type} [DecidableEq K] (k : K) :
    ∀ xs : List K, k ∈ firstKeys xs ↔ k ∈ xs := by
  intro xs
  induction xs with
  | nil => simp [firstKeys]
  | cons x xs ih =>
    by_cases hkx : k = x
    · subst hkx
      simp [firstKeys]
    · simp only [firstKeys, List.mem_cons]
      constructor
      · rintro (h | h)
        · exact Or.inl h
        · exact Or.inr (ih.mp (List.mem_filter.mp h).1)
      · rintro (h | h)
        · exact Or.inl h
        · refine Or.inr (List.mem_filter.mpr ⟨ih.mpr h, ?_⟩)
          simpa using hkx

theorem firstKeys_nodup {K : Type} [DecidableEq K] :
    ∀ xs : List K, (firstKeys xs).Nodup := by
  intro xs
  induction xs with
  | nil => simp [firstKeys]
  | cons x xs ih =>
    simp only [firstKeys]
    refine List.Nodup.cons ?_ (List.Nodup.filter _ ih)
    intro hmem
    have := (List.mem_filter.mp hmem).2
    simp at this

theorem firstKeys_append_single {K : Type} [DecidableEq K] (xs : List K) (k : K) :
    firstKeys (xs ++ [k]) =
      if k ∈ xs then firstKeys xs else firstKeys xs ++ [k] := by
  induction xs with
  | nil => simp [firstKeys]
  | cons x xs ih =>
    by_cases hkx : k = x
    · subst hkx
      rw [if_pos (List.mem_cons_self _ _)]
      simp only [List.cons_append, firstKeys, List.append_eq]
      by_cases hk : k ∈ xs
      · rw [ih, if_pos hk]
      · rw [ih, if_neg hk, List.filter_append]
        simp
    · have hmem : (k ∈ x :: xs) ↔ (k ∈ xs) := by simp [hkx]
      by_cases hk : k ∈ xs
      · rw [if_pos (hmem.mpr hk)]
        simp only [List.cons_append, firstKeys, List.append_eq]
        rw [ih, if_pos hk]
      · rw [if_neg (fun hh => hk (hmem.mp hh))]
        simp only [List.cons_append, firstKeys, List.append_eq]
        rw [ih, if_neg hk, List.filter_append]
        simp [hkx]

theorem jsMapOf_append_single {K α : Type} [DecidableEq K] (key : α → K)
    (l : List α) (r : α) :
    jsMapOf key (l ++ [r]) = mapInsert (key r) r (jsMapOf key l) := by
  simp [jsMapOf, List.foldl_append]

/-- The keys of the JS map are the input keys in first-occurrence order. -/
theorem jsMapOf_map_fst {K α : Type} [DecidableEq K] (key : α → K)
    (l : List α) :
    (jsMapOf key l).map Prod.fst = firstKeys (l.map key) := by
  induction l using List.reverseRecOn with
  | nil => simp [jsMapOf, firstKeys]
  | append_singleton l r ih =>
    rw [jsMapOf_append_single, mapInsert_map_fst, ih, List.map_append]
    simp only [List.map_cons, List.map_nil]
    rw [firstKeys_append_single]
    by_cases h : key r ∈ l.map key
    · rw [if_pos ((mem_firstKeys _ _).mpr h), if_pos h]
    · rw [if_neg (fun hh => h ((mem_firstKeys _ _).mp hh)), if_neg h]

/-- Every entry of the JS map stores a value whose key is the entry's key. -/
theorem jsMapOf_key_snd {K α : Type} [DecidableEq K] (key : α → K)
    (l : List α) :
    ∀ p ∈ jsMapOf key l, key p.2 = p.1 := by
  induction l using List.reverseRecOn with
  | nil => simp [jsMapOf]
  | append_singleton l r ih =>
    intro p hp
    rw [jsMapOf_append_single] at hp
    rcases mem_of_mem_mapInsert _ _ _ _ hp with h | h
    · subst h; rfl
    · exact ih p h

theorem jsMapOf_fst_nodup {K α : Type} [DecidableEq K] (key : α → K)
    (l : List α) :
    ((jsMapOf key l).map Prod.fst).Nodup := by
  rw [jsMapOf_map_fst]
  exact firstKeys_nodup _

/-- Filtering the values of `mapInsert k v m` at key `k` yields exactly
`[v]`, and the values at any other key are untouched (for a map whose
entries store key-consistent values with no duplicate keys). -/
theorem mapInsert_snd_filter {K α : Type} [DecidableEq K] (key : α → K)
    (k : K) (v : α) (hv : key v = k) :
    ∀ m : List (K × α), (∀ p ∈ m, key p.2 = p.1) → (m.map Prod.fst).Nodup →
      ∀ k', ((mapInsert k v m).map Prod.snd).filter (fun r => key r = k') =
        if k' = k then [v]
        else (m.map Prod.snd).filter (fun r => key r = k') := by
  intro m
  induction m with
  | nil =>
    intro _ _ k'
    by_cases h : k' = k
    · simp [mapInsert, h, hv]
    · have : ¬ key v = k' := by rw [hv]; exact fun hh => h hh.symm
      simp [mapInsert, h, this]
  | cons q m ih =>
    obtain ⟨k₁, v₁⟩ := q
    intro hinv hnd k'
    have hv₁ : key v₁ = k₁ := hinv (k₁, v₁) (List.mem_cons_self _ _)
    have hinv' : ∀ p ∈ m, key p.2 = p.1 :=
      fun p hp => hinv p (List.mem_cons_of_mem _ hp)
    simp only [List.map_cons, List.nodup_cons] at hnd
    by_cases hk : k₁ = k
    · subst hk
      rw [mapInsert_cons_self]
      by_cases h : k' = k₁
      · subst h
        have hnone : ∀ r ∈ m.map Prod.snd, ¬ key r = k' := by
          intro r hr
          obtain ⟨p, hp, hps⟩ := List.mem_map.mp hr
          rw [← hps, hinv' p hp]
          intro hc
          exact hnd.1 (hc ▸ List.mem_map_of_mem Prod.fst hp)
        rw [if_pos rfl]
        simp only [List.map_cons, List.filter_cons]
        rw [if_pos (by simpa using hv), List.filter_eq_nil_iff.mpr
          (by intro r hr; simpa using hnone r hr)]
      · rw [if_neg h]
        have h₁ : ¬ key v = k' := by rw [hv]; exact fun hh => h hh.symm
        have h₂ : ¬ key v₁ = k' := by rw [hv₁]; exact fun hh => h hh.symm
        simp only [List.map_cons, List.filter_cons]
        rw [if_neg (by simpa using h₁), if_neg (by simpa using h₂)]
    · rw [mapInsert_cons_ne hk]
      have := ih hinv' hnd.2 k'
      by_cases h : k' = k
      · subst h
        rw [if_pos rfl] at this ⊢
        have h₂ : ¬ key v₁ = k' := by rw [hv₁]; exact hk
        simp only [List.map_cons, List.filter_cons]
        rw [if_neg (by simpa using h₂)]
        exact this
      · rw [if_neg h] at this ⊢
        simp only [List.map_cons, List.filter_cons]
        by_cases h₂ : key v₁ = k'
        · rw [if_pos (by simpa using h₂), if_pos (by simpa using h₂), this]
        · rw [if_neg (by simpa using h₂), if_neg (by simpa using h₂), this]

/-- Per-key characterization of the dedup step: for every key the output
keeps exactly the last input record with that key (and nothing for keys
that do not occur). -/
theorem dedupByKey_filter_eq_getLast {K α : Type} [DecidableEq K]
    (key : α → K) (l : List α) (k : K) :
    (dedupByKey key l).filter (fun r => key r = k) =
      ((l.filter (fun r => key r = k)).getLast?).toList := by
  induction l using List.reverseRecOn with
  | nil => simp [dedupByKey, jsMapOf]
  | append_singleton l r ih =>
    rw [List.filter_append]
    unfold dedupByKey
    rw [jsMapOf_append_single,
      mapInsert_snd_filter key (key r) r rfl (jsMapOf key l)
        (jsMapOf_key_snd key l) (jsMapOf_fst_nodup key l) k]
    by_cases h : key r = k
    · rw [if_pos h.symm]
      have : List.filter (fun r => key r = k) [r] = [r] := by simp [h]
      rw [this, List.getLast?_concat]
      simp
    · rw [if_neg (fun hh => h hh.symm)]
      have : List.filter (fun r => key r = k) [r] = [] := by simp [h]
      rw [this, List.append_nil]
      exact ih

/-- A list whose keys are already distinct is a fixpoint of the dedup
step. -/
theorem dedupByKey_of_nodup {K α : Type} [DecidableEq K] (key : α → K) :
    ∀ l : List α, (l.map key).Nodup → dedupByKey key l = l := by
  intro l
  induction l using List.reverseRecOn with
  | nil => intro _; simp [dedupByKey, jsMapOf]
  | append_singleton l r ih =>
    intro hnd
    rw [List.map_append] at hnd
    simp only [List.map_cons, List.map_nil] at hnd
    have hl : (l.map key).Nodup := (List.nodup_append.mp hnd).1
    have hr : key r ∉ l.map key := by
      have := (List.nodup_append.mp hnd).2.2
      intro hc
      exact this hc (by simp)
    unfold dedupByKey
    rw [jsMapOf_append_single, mapInsert_append_of_not_mem _ _ _
      (by rw [jsMapOf_map_fst]; exact fun hc => hr ((mem_firstKeys _ _).mp hc)),
      List.map_append]
    have : dedupByKey key l = l := ih hl
    unfold dedupByKey at this
    rw [this]
    simp

/-- The keys of the dedup output, in order. -/
theorem dedupByKey_map_key {K α : Type} [DecidableEq K] (key : α → K)
    (l : List α) :
    (dedupByKey key l).map key = firstKeys (l.map key) := by
  have h₁ : (dedupByKey key l).map key = (jsMapOf key l).map Prod.fst := by
    unfold dedupByKey
    rw [List.map_map]
    exact List.map_congr_left (fun p hp => jsMapOf_key_snd key l p hp)
  rw [h₁, jsMapOf_map_fst]

/-- The dedup output has pairwise-distinct keys. -/
theorem dedupByKey_key_nodup {K α : Type} [DecidableEq K] (key : α → K)
    (l : List α) :
    ((dedupByKey key l).map key).Nodup := by
  rw [dedupByKey_map_key]
  exact firstKeys_nodup _

/-- Two lists agreeing key-sequence-wise and filter-wise are equal. -/
theorem eq_of_map_key_eq_of_filter_eq {K α : Type} [DecidableEq K]
    (key : α → K) :
    ∀ (D E : List α), D.map key = E.map key →
      (∀ k, D.filter (fun r => key r = k) = E.filter (fun r => key r = k)) →
      D = E := by
  intro D
  induction D with
  | nil =>
    intro E hmap _
    exact (List.map_eq_nil_iff.mp hmap.symm) ▸ rfl
  | cons d D ih =>
    intro E hmap hfil
    cases E with
    | nil => simp at hmap
    | cons e E =>
      simp only [List.map_cons, List.cons.injEq] at hmap
      have hde : d = e := by
        have := hfil (key d)
        simp only [List.filter_cons] at this
        rw [if_pos (by simp), if_pos (by simp [hmap.1])] at this
        exact (List.cons.injEq _ _ _ _).mp this |>.1
      refine (List.cons.injEq _ _ _ _).mpr ⟨hde, ih E hmap.2 ?_⟩
      intro k
      have := hfil k
      simp only [List.filter_cons] at this
      by_cases hk : key d = k
      · rw [if_pos (by simpa using hk),
          if_pos (by simpa [← hmap.1, hde] using hk)] at this
        exact (List.cons.injEq _ _ _ _).mp this |>.2
      · rw [if_neg (by simpa using hk),
          if_neg (by simpa [← hmap.1, hde] using hk)] at this
        exact this

theorem filterMap_map_key {K α : Type} [DecidableEq K] (key : α → K)
    (g : K → Option α) :
    ∀ A : List K, (∀ k ∈ A, ∃ x, g k = some x ∧ key x = k) →
      (A.filterMap g).map key = A := by
  intro A
  induction A with
  | nil => intro _; simp
  | cons a A ih =>
    intro h
    obtain ⟨x, hx, hkx⟩ := h a (List.mem_cons_self _ _)
    rw [List.filterMap_cons, hx, List.map_cons, hkx,
      ih (fun k hk => h k (List.mem_cons_of_mem _ hk))]

theorem filterMap_filter_key {K α : Type} [DecidableEq K] (key : α → K)
    (g : K → Option α) :
    ∀ A : List K, A.Nodup → (∀ k ∈ A, ∃ x, g k = some x ∧ key x = k) →
      ∀ k', (A.filterMap g).filter (fun r => key r = k') =
        if k' ∈ A then (g k').toList else [] := by
  intro A
  induction A with
  | nil => intro _ _ k'; simp
  | cons a A ih =>
    intro hnd hp k'
    obtain ⟨x, hx, hkx⟩ := hp a (List.mem_cons_self _ _)
    rw [List.nodup_cons] at hnd
    have ihk := ih hnd.2 (fun k hk => hp k (List.mem_cons_of_mem _ hk)) k'
    rw [List.filterMap_cons, hx, List.filter_cons]
    by_cases h : a = k'
    · subst h
      rw [if_pos (by simpa using hkx), ihk, if_neg hnd.1,
        if_pos (List.mem_cons_self _ _), hx]
      simp
    · have : ¬ key x = k' := by rw [hkx]; exact h
      rw [if_neg (by simpa using this), ihk]
      by_cases hk : k' ∈ A
      · rw [if_pos hk, if_pos (List.mem_cons_of_mem _ hk)]
      · rw [if_neg hk, if_neg (by
          simp only [List.mem_cons]
          rintro (hh | hh)
          · exact h hh.symm
          · exact hk hh)]

/-- Full characterization of the JS-`Map` dedup: the output lists, for each
distinct key in first-occurrence order, the last input record carrying
that key. -/
theorem dedupByKey_eq_firstKeys_filterMap {K α : Type} [DecidableEq K]
    (key : α → K) (l : List α) :
    dedupByKey key l =
      (firstKeys (l.map key)).filterMap
        (fun k => (l.filter (fun r => key r = k)).getLast?) := by
  set g : K → Option α := fun k => (l.filter (fun r => key r = k)).getLast? with hg
  have hprop : ∀ k ∈ firstKeys (l.map key), ∃ x, g k = some x ∧ key x = k := by
    intro k hk
    have hmem : k ∈ l.map key := (mem_firstKeys _ _).mp hk
    obtain ⟨r, hr, hrk⟩ := List.mem_map.mp hmem
    have hne : l.filter (fun r => key r = k) ≠ [] := by
      intro hc
      have := List.filter_eq_nil_iff.mp hc r hr
      simp [hrk] at this
    refine ⟨(l.filter (fun r => key r = k)).getLast hne,
      List.getLast?_eq_getLast _ hne, ?_⟩
    have := List.getLast_mem hne
    simpa using (List.mem_filter.mp this).2
  refine eq_of_map_key_eq_of_filter_eq key _ _ ?_ ?_
  · rw [dedupByKey_map_key, filterMap_map_key key g _ hprop]
  · intro k
    rw [dedupByKey_filter_eq_getLast,
      filterMap_filter_key key g _ (firstKeys_nodup _) hprop k]
    by_cases h : k ∈ firstKeys (l.map key)
    · rw [if_pos h]
    · rw [if_neg h]
      have hnm : k ∉ l.map key := fun hc => h ((mem_firstKeys _ _).mpr hc)
      have : l.filter (fun r => key r = k) = [] := by
        rw [List.filter_eq_nil_iff]
        intro r hr
        simp only [decide_eq_true_eq]
        intro hc
        exact hnm (hc ▸ List.mem_map_of_mem key hr)
      rw [this]
      rfl

/-! ## Records, pages and servers

A record is kept opaque except for the fields the harvesters read: the
natural key (`TTHC_MA`), the reported total (`TOTAL_RECORDS` /
`AMOUNT`, after `parseInt(... || 0)`), and an opaque payload standing
for every other field.  A remote server is a function from page index to
an optional parsed page; `none` is a rejected request (bad status,
network error, unparseable body). -/

structure Rec where
  key : Nat
  amount : Nat
  payload : Nat
deriving DecidableEq

/-- `Math.ceil(n / p)` on naturals (`p > 0` in every run considered). -/
def ceilDiv (n p : Nat) : Nat := (n + p - 1) / p

/-- Record `i` of a source that consistently serves `N` total records. -/
def mkRec (i N : Nat) : Rec := ⟨i, N, 0⟩

/-- The `p`-th page (1-based) of a consistent source with `N` records
served `P` per page: records `(p-1)*P ..` capped at `P` and at the
remaining count. -/
def pageOf (N P p : Nat) : List Rec :=
  (List.range' ((p - 1) * P) (min P (N - (p - 1) * P))).map (fun i => mkRec i N)

/-- A server that always answers consistently with `N` total records. -/
def consServer (N P : Nat) : Nat → Option (List Rec) :=
  fun p => some (pageOf N P p)

theorem pageOf_length (N P p : Nat) :
    (pageOf N P p).length = min P (N - (p - 1) * P) := by
  simp [pageOf]

namespace DC

/-- `DecisionCrawler.fetchPage` (part_001 lines 19-53): issues exactly one
POST request for the page; a failure is logged and rethrown (`throw
error`), so the caller observes it.  First component: the parsed
response (`none` = rejected promise); second: the page indices
requested by this call. -/
def fetchPage (transport : Nat → Option (List Rec)) (pageIndex : Nat) :
    Option (List Rec) × List Nat :=
  (transport pageIndex, [pageIndex])

/-- `DecisionCrawler.calculateTotalPages` (part_001 lines 60-62). -/
def calculateTotalPages (totalRecords recordsPerPage : Nat) : Nat :=
  ceilDiv totalRecords recordsPerPage

/-- The `recordsPerPage` set by the constructor (part_001 line 10). -/
def recordsPerPage : Nat := 50

/-- The page loop of `crawlAll` (part_001 lines 92-108): every page index
is fetched; a failure is caught, logged, and the loop continues with the
next index; a successful non-empty page is appended (an empty or
non-array page contributes nothing but does not stop the loop). -/
def fetchLoop (transport : Nat → Option (List Rec)) :
    List Nat → List Rec
  | [] => []
  | p :: ps => (((fetchPage transport p).1).getD []) ++ fetchLoop transport ps

/-- `DecisionCrawler.crawlAll` (part_001 lines 68-112): fetch page 1
(outside any try/catch — its failure rejects `crawlAll`, modelled as
`none`); stop on an empty first page; otherwise read `AMOUNT` from the
first record and fetch pages `2..totalPages`.  Second component: every
page index fetched, in order. -/
def crawlAll (transport : Nat → Option (List Rec)) (rpp : Nat) :
    Option (List Rec) × List Nat :=
  match (fetchPage transport 1).1 with
  | none => (none, [1])
  | some [] => (some [], [1])
  | some (r :: rest) =>
    let totalPages := calculateTotalPages r.amount rpp
    let pages := List.range' 2 (totalPages - 1)
    (some ((r :: rest) ++ fetchLoop transport pages), 1 :: pages)

end DC

namespace ListTthc

/-- `fetchTTHC` (list_tthc.js lines 30-95): one POST request per call;
non-200 status, network error and JSON parse error all reject. -/
def fetchTTHC (transport : Nat → Option (List Rec)) (pageIndex : Nat) :
    Option (List Rec) × List Nat :=
  (transport pageIndex, [pageIndex])

/-- JS truthiness of the `limit` variable (`null` or `parseInt` result):
`0` is falsy and behaves exactly like `null` at every use site
(`limit || totalRecords`, `limit && ...`, `limit ? ... : ...`). -/
def limitVal : Option Nat → Option Nat
  | some (n + 1) => some (n + 1)
  | _ => none

/-- How a run of `main` ends. -/
inductive Outcome
  | fatal
  | noData
  | saved (finalResult : List Rec)
deriving DecidableEq

/-- A run: its outcome, the page indices fetched in order, and the
accumulated `allTTHC` array before deduplication. -/
structure RunResult where
  outcome : Outcome
  fetched : List Nat
  allTTHC : List Rec
deriving DecidableEq

/-- The page loop of `main` (list_tthc.js lines 145-171): a rejected
fetch is caught and the loop continues; an empty (or non-array) page
breaks; otherwise the page is appended and, when a truthy limit has been
reached, the loop breaks. -/
def loopPages (transport : Nat → Option (List Rec)) (lim : Option Nat) :
    List Nat → List Rec → List Rec × List Nat
  | [], acc => (acc, [])
  | p :: ps, acc =>
    match (fetchTTHC transport p).1 with
    | none =>
        let r := loopPages transport lim ps acc
        (r.1, p :: r.2)
    | some pageData =>
        if pageData.isEmpty then (acc, [p])
        else
          let acc' := acc ++ pageData
          match limitVal lim with
          | some L =>
              if L ≤ acc'.length then (acc', [p])
              else
                let r := loopPages transport lim ps acc'
                (r.1, p :: r.2)
          | none =>
              let r := loopPages transport lim ps acc'
              (r.1, p :: r.2)

/-- `main` (list_tthc.js lines 107-204): fetch page 1; bail out on a
rejected first fetch (fatal) or an empty first page (noData); read
`TOTAL_RECORDS` from the first record; compute the page bound from the
(truthy) limit or the reported total; run the loop from page 2;
deduplicate by `TTHC_MA`; apply the truthy limit to the deduplicated
result. -/
def main (transport : Nat → Option (List Rec)) (lim : Option Nat)
    (pageSize : Nat) : RunResult :=
  match (fetchTTHC transport 1).1 with
  | none => ⟨.fatal, [1], []⟩
  | some [] => ⟨.noData, [1], []⟩
  | some (r :: rest) =>
    let totalRecords := r.amount
    let maxRecords := (limitVal lim).getD totalRecords
    let maxPages := ceilDiv maxRecords pageSize
    let res := loopPages transport lim (List.range' 2 (maxPages - 1)) (r :: rest)
    let uniqueTTHC := dedupByKey Rec.key res.1
    let finalResult :=
      match limitVal lim with
      | some L => uniqueTTHC.take L
      | none => uniqueTTHC
    ⟨.saved finalResult, 1 :: res.2, res.1⟩

end ListTthc

namespace Moh

/-- One parsed response of the search endpoint (crawler.js line 19):
`lstResult` (or `[]`) and `nTotal` (or `0`). -/
structure Page where
  docs : List Rec
  nTotal : Nat
deriving DecidableEq

/-- `fetchPage` (crawler.js lines 13-24): issues one GET; **every**
failure (non-ok status, network error, JSON error) is caught, logged,
and an empty page `{docs: [], nTotal: 0}` is returned — the caller never
observes an error.  Second component: the page indices requested by
this call (always exactly one, no retry). -/
def fetchPage (transport : Nat → Option Page) (page : Nat) :
    Page × List Nat :=
  (match transport page with
   | some pg => pg
   | none => ⟨[], 0⟩, [page])

/-- The harvest loop of `main` (crawler.js lines 62-65). -/
def harvestLoop (transport : Nat → Option Page) : List Nat → List Rec
  | [] => []
  | p :: ps => (fetchPage transport p).1.docs ++ harvestLoop transport ps

/-- `main` (crawler.js lines 54-84): harvest pages `0..totalPages-1`,
write `allDocs`, then run the download phase, which fetches **every page
a second time** (lines 73-74) to walk the attachments.  First component:
`allDocs`; second: every page index fetched over the whole run, in
order. -/
def main (transport : Nat → Option Page) (pageSize : Nat) :
    List Rec × List Nat :=
  let first := fetchPage transport 0
  let totalPages := ceilDiv first.1.nTotal pageSize
  let harvestPages := List.range' 1 (totalPages - 1)
  let allDocs := first.1.docs ++ harvestLoop transport harvestPages
  let downloadPages := List.range totalPages
  (allDocs, (first.2 ++ harvestPages) ++ downloadPages)

/-- An attachment as crawler.js sees it. -/
structure Attachment where
  attachId : String
  fileName : String
deriving DecidableEq

def OUTPUT_ROOT : String := "result/emohbackup.moh.gov.vn/publish/home"

def ATTACH_URL : String := "https://emohbackup.moh.gov.vn/publish/attach/getfile"

/-- The destination path crawler.js computes (lines 32-33). -/
def attachFilePath (documentId : String) (a : Attachment) : String :=
  OUTPUT_ROOT ++ "/attachments/documentId=" ++ documentId ++ "/" ++ a.fileName

/-- Result of one `downloadAttachment` call: the filesystem afterwards,
the number of network requests issued, and whether the
already-downloaded (cached) early return was taken. -/
structure DownloadResult where
  fsAfter : List String
  requests : Nat
  cached : Bool
deriving DecidableEq

/-- `downloadAttachment` (crawler.js lines 28-51): create the folder;
if the destination file already exists, log "Already downloaded" and
return without any network request; otherwise fetch the attachment once
and write the file on success; a failure is caught and leaves the
filesystem unchanged. -/
def downloadAttachment (net : String → Option Nat) (fs : List String)
    (a : Attachment) (documentId : String) : DownloadResult :=
  let filePath := attachFilePath documentId a
  if filePath ∈ fs then ⟨fs, 0, true⟩
  else
    match net (ATTACH_URL ++ "/" ++ a.attachId) with
    | some _ => ⟨filePath :: fs, 1, false⟩
    | none => ⟨fs, 1, false⟩

end Moh

/-! ## Claim theorems -/

/-- Claim C5: for every accumulated Collection, the dedup step of
list_tthc.js keeps, for each `TTHC_MA` key occurring in the input,
exactly one record, and that record is the last-seen record with that
key (keys not occurring contribute nothing). -/
theorem dedup_keeps_exactly_last_per_key (l : List Rec) (k : Nat) :
    (dedupByKey Rec.key l).filter (fun r => r.key = k) =
      ((l.filter (fun r => r.key = k)).getLast?).toList ∧
    (k ∈ l.map Rec.key →
      ((dedupByKey Rec.key l).filter (fun r => r.key = k)).length = 1) := by
  refine ⟨dedupByKey_filter_eq_getLast Rec.key l k, ?_⟩
  intro hk
  rw [dedupByKey_filter_eq_getLast Rec.key l k]
  obtain ⟨r, hr, hrk⟩ := List.mem_map.mp hk
  have hne : l.filter (fun r => r.key = k) ≠ [] := by
    intro hc
    have := List.filter_eq_nil_iff.mp hc r hr
    simp [hrk] at this
  rw [List.getLast?_eq_getLast _ hne]
  rfl

/-- Witness for C5: a concrete collection with a duplicated key; the
dedup output keeps exactly the last record with key 1. -/
theorem dedup_keeps_exactly_last_per_key_witness :
    ((dedupByKey Rec.key [⟨1, 9, 0⟩, ⟨2, 9, 0⟩, ⟨1, 9, 7⟩]).filter
        (fun r => r.key = 1) =
      (([⟨1, 9, 0⟩, ⟨2, 9, 0⟩, ⟨1, 9, 7⟩].filter
          (fun r => Rec.key r = 1)).getLast?).toList) ∧
    ((1 : Nat) ∈ [Rec.mk 1 9 0, ⟨2, 9, 0⟩, ⟨1, 9, 7⟩].map Rec.key ∧
      ((dedupByKey Rec.key [⟨1, 9, 0⟩, ⟨2, 9, 0⟩, ⟨1, 9, 7⟩]).filter
          (fun r => r.key = 1)).length = 1) := by
  refine ⟨(dedup_keeps_exactly_last_per_key
    [⟨1, 9, 0⟩, ⟨2, 9, 0⟩, ⟨1, 9, 7⟩] 1).1, by decide,
    (dedup_keeps_exactly_last_per_key
      [⟨1, 9, 0⟩, ⟨2, 9, 0⟩, ⟨1, 9, 7⟩] 1).2 (by decide)⟩

/-- Claim C6: the dedup step is idempotent — running it twice on the
same Collection yields the same result as running it once. -/
theorem dedup_idempotent (l : List Rec) :
    dedupByKey Rec.key (dedupByKey Rec.key l) = dedupByKey Rec.key l :=
  dedupByKey_of_nodup Rec.key _ (dedupByKey_key_nodup Rec.key l)

/-- Claim C10: the dedup output lists one record per distinct key, keys
ordered by their first occurrence in the input, each carrying the fields
of the last (latest-fetched) input record with that key. -/
theorem dedup_first_position_last_value (l : List Rec) :
    (dedupByKey Rec.key l).map Rec.key = firstKeys (l.map Rec.key) ∧
    dedupByKey Rec.key l =
      (firstKeys (l.map Rec.key)).filterMap
        (fun k => (l.filter (fun r => r.key = k)).getLast?) :=
  ⟨dedupByKey_map_key Rec.key l, dedupByKey_eq_firstKeys_filterMap Rec.key l⟩

/-- Claim C7: crawler.js `downloadAttachment` with an already-existing
destination file issues zero network requests, takes the cached early
return, leaves the filesystem unchanged — and hence a second call with
the same Attachment issues no request either. -/
theorem downloadAttachment_cached_skips_network
    (net net' : String → Option Nat) (fs : List String) (a : Moh.Attachment)
    (documentId : String)
    (h : Moh.attachFilePath documentId a ∈ fs) :
    Moh.downloadAttachment net fs a documentId =
      ⟨fs, 0, true⟩ ∧
    Moh.downloadAttachment net'
        (Moh.downloadAttachment net fs a documentId).fsAfter a documentId =
      ⟨fs, 0, true⟩ := by
  have h1 : Moh.downloadAttachment net fs a documentId = ⟨fs, 0, true⟩ := by
    simp [Moh.downloadAttachment, h]
  refine ⟨h1, ?_⟩
  rw [h1]
  simp [Moh.downloadAttachment, h]

/-- Witness for C7: one concrete attachment whose file is present. -/
theorem downloadAttachment_cached_skips_network_witness :
    (Moh.attachFilePath "d1" ⟨"a1", "f.pdf"⟩ ∈
        [Moh.attachFilePath "d1" ⟨"a1", "f.pdf"⟩]) ∧
    Moh.downloadAttachment (fun _ => some 1)
        [Moh.attachFilePath "d1" ⟨"a1", "f.pdf"⟩] ⟨"a1", "f.pdf"⟩ "d1" =
      ⟨[Moh.attachFilePath "d1" ⟨"a1", "f.pdf"⟩], 0, true⟩ ∧
    Moh.downloadAttachment (fun _ => none)
        (Moh.downloadAttachment (fun _ => some 1)
          [Moh.attachFilePath "d1" ⟨"a1", "f.pdf"⟩] ⟨"a1", "f.pdf"⟩
          "d1").fsAfter ⟨"a1", "f.pdf"⟩ "d1" =
      ⟨[Moh.attachFilePath "d1" ⟨"a1", "f.pdf"⟩], 0, true⟩ := by
  have h := downloadAttachment_cached_skips_network (fun _ => some 1)
    (fun _ => none) [Moh.attachFilePath "d1" ⟨"a1", "f.pdf"⟩]
    ⟨"a1", "f.pdf"⟩ "d1" (List.mem_singleton.mpr rfl)
  exact ⟨List.mem_singleton.mpr rfl, h.1, h.2⟩

/-- Counterexample to C2 as stated: crawler.js `fetchPage` does not fail
on a transport-level failure; with every request failing it returns the
normal empty page `{docs: [], nTotal: 0}` — indistinguishable from a
successful fetch of an empty listing. -/
theorem fetchPage_swallows_failure_counterexample :
    (Moh.fetchPage (fun _ => none) 0).1 = ⟨[], 0⟩ ∧
    Moh.fetchPage (fun _ => none) 0 =
      Moh.fetchPage (fun _ => some ⟨[], 0⟩) 0 :=
  ⟨rfl, rfl⟩

/-- Claim C2 as amended: on a transport-level failure, part_001
`DecisionCrawler.fetchPage` issues exactly one request (for exactly the
requested page, no retry) and propagates the failure to its caller,
while crawler.js `fetchPage` issues exactly one request (no retry) but
catches the failure and returns the empty page `{docs: [], nTotal: 0}`
instead of failing. -/
theorem fetchPage_failure_behaviour (t₁ : Nat → Option (List Rec))
    (t₂ : Nat → Option Moh.Page) (p q : Nat)
    (h₁ : t₁ p = none) (h₂ : t₂ q = none) :
    (DC.fetchPage t₁ p).1 = none ∧ (DC.fetchPage t₁ p).2 = [p] ∧
    (Moh.fetchPage t₂ q).1 = ⟨[], 0⟩ ∧ (Moh.fetchPage t₂ q).2 = [q] := by
  refine ⟨?_, rfl, ?_, rfl⟩
  · simp [DC.fetchPage, h₁]
  · simp [Moh.fetchPage, h₂]

/-- Witness for the amended C2, at an always-failing transport. -/
theorem fetchPage_failure_behaviour_witness :
    ((fun _ : Nat => (none : Option (List Rec))) 3 = none) ∧
    ((fun _ : Nat => (none : Option Moh.Page)) 7 = none) ∧
    ((DC.fetchPage (fun _ => none) 3).1 = none ∧
      (DC.fetchPage (fun _ => none) 3).2 = [3] ∧
      (Moh.fetchPage (fun _ => none) 7).1 = ⟨[], 0⟩ ∧
      (Moh.fetchPage (fun _ => none) 7).2 = [7]) :=
  ⟨rfl, rfl, fetchPage_failure_behaviour
    (fun _ => none) (fun _ => none) 3 7 rfl rfl⟩

/-! ## Arithmetic and loop-bound lemmas -/

theorem one_le_ceilDiv (N P : Nat) (hN : 0 < N) (hP : 0 < P) :
    1 ≤ ceilDiv N P :=
  (Nat.le_div_iff_mul_le hP).mpr (by omega)

theorem ceilDiv_zero_left (P : Nat) : ceilDiv 0 P = 0 := by
  unfold ceilDiv
  cases P with
  | zero => rfl
  | succ p => exact Nat.div_eq_of_lt (by omega)

/-- Bound for the part_001 page loop: if every served page respects the
remaining-record cap of a source with `N` records and page size `P`
(1-based pages), the records gathered from pages `j+1, j+2, ...` number
at most `N - j*P`. -/
theorem fetchLoop_length_le (t : Nat → Option (List Rec)) (N P : Nat)
    (hcap : ∀ p l, t p = some l → l.length ≤ min P (N - (p - 1) * P)) :
    ∀ (k j : Nat),
      (DC.fetchLoop t (List.range' (j + 1) k)).length ≤ N - j * P := by
  intro k
  induction k with
  | zero => intro j; simp [DC.fetchLoop]
  | succ k ih =>
    intro j
    rw [List.range'_succ (j + 1) k 1]
    simp only [DC.fetchLoop, DC.fetchPage, List.length_append]
    have h₁ : ((t (j + 1)).getD []).length ≤ min P (N - j * P) := by
      cases h : t (j + 1) with
      | none => simp
      | some l => simpa using hcap (j + 1) l h
    have h₂ := ih (j + 1)
    have hmul : (j + 1) * P = j * P + P := by ring
    omega

/-- Bound for the crawler.js loops (0-based pages): the records gathered
from pages `j, j+1, ...` number at most `N - j*P`. -/
theorem harvestLoop_length_le (t : Nat → Option Moh.Page) (N P : Nat)
    (hcap : ∀ p pg, t p = some pg → pg.docs.length ≤ min P (N - p * P)) :
    ∀ (k j : Nat),
      (Moh.harvestLoop t (List.range' j k)).length ≤ N - j * P := by
  intro k
  induction k with
  | zero => intro j; simp [Moh.harvestLoop]
  | succ k ih =>
    intro j
    rw [List.range'_succ j k 1]
    simp only [Moh.harvestLoop, Moh.fetchPage, List.length_append]
    have h₁ : (match t j with
        | some pg => pg
        | none => (⟨[], 0⟩ : Moh.Page)).docs.length ≤ min P (N - j * P) := by
      cases h : t j with
      | none => simp
      | some pg => simpa using hcap j pg h
    have h₂ := ih (j + 1)
    have hmul : (j + 1) * P = j * P + P := by ring
    omega

/-- A crawler.js-side server that consistently serves 120 records, 50 per
page (crawler.js pages are 0-based, so 0-based page `p` is 1-based page
`p + 1`). -/
def mohConsServer : Nat → Option Moh.Page :=
  fun p => some ⟨pageOf 120 50 (p + 1), 120⟩

/-- Counterexample to C1 as stated: against a fully consistent source
with 120 total records and page size 50, crawler.js `main` issues 6 page
fetches over the whole run — 3 in the harvest phase plus 3 more in the
download phase, which re-fetches every page — not at most
`ceil(120/50) = 3`. -/
theorem whole_run_fetch_count_counterexample :
    (Moh.main mohConsServer 50).2.length = 6 ∧
    ceilDiv 120 50 = 3 ∧
    ¬ ((Moh.main mohConsServer 50).2.length ≤ ceilDiv 120 50) := by
  refine ⟨rfl, rfl, ?_⟩
  intro h
  rw [show (Moh.main mohConsServer 50).2.length = 6 from rfl,
    show ceilDiv 120 50 = 3 from rfl] at h
  omega

/-- Claim C1 as amended: against a source consistently reporting `N`
total records with page size `P`, part_001 `crawlAll` issues exactly
`ceil(N/P)` page fetches (so at most that many) and accumulates at most
`N` records, while crawler.js `main` accumulates at most `N` records in
`allDocs` but issues `2 * ceil(N/P)` page fetches over the whole run,
because its download phase re-fetches every page. -/
theorem harvest_fetch_bound_amended
    (t₁ : Nat → Option (List Rec)) (t₂ : Nat → Option Moh.Page)
    (N P : Nat) (hN : 0 < N) (hP : 0 < P)
    (fp : List Rec) (h1 : t₁ 1 = some fp) (hne : fp ≠ [])
    (hamt : (fp.head?.getD ⟨0, 0, 0⟩).amount = N)
    (hcap₁ : ∀ p l, t₁ p = some l → l.length ≤ min P (N - (p - 1) * P))
    (hN₂ : (Moh.fetchPage t₂ 0).1.nTotal = N)
    (hcap₂ : ∀ p pg, t₂ p = some pg → pg.docs.length ≤ min P (N - p * P)) :
    (DC.crawlAll t₁ P).2.length = ceilDiv N P ∧
    (∀ res, (DC.crawlAll t₁ P).1 = some res → res.length ≤ N) ∧
    (Moh.main t₂ P).2.length = 2 * ceilDiv N P ∧
    (Moh.main t₂ P).1.length ≤ N := by
  have hT := one_le_ceilDiv N P hN hP
  obtain ⟨r, rest, rfl⟩ : ∃ r rest, fp = r :: rest := by
    cases fp with
    | nil => exact absurd rfl hne
    | cons r rest => exact ⟨r, rest, rfl⟩
  have hr : r.amount = N := by simpa using hamt
  have hcrawl : DC.crawlAll t₁ P =
      (some ((r :: rest) ++
          DC.fetchLoop t₁ (List.range' 2 (ceilDiv N P - 1))),
        1 :: List.range' 2 (ceilDiv N P - 1)) := by
    simp only [DC.crawlAll, DC.fetchPage, h1, DC.calculateTotalPages, hr]
  refine ⟨?_, ?_, ?_, ?_⟩
  · rw [hcrawl]
    simp only [List.length_cons, List.length_range']
    omega
  · intro res hres
    rw [hcrawl] at hres
    simp only [Option.some.injEq] at hres
    subst hres
    have hfp : (r :: rest).length ≤ min P N := by
      have := hcap₁ 1 (r :: rest) h1
      simpa using this
    have hloop := fetchLoop_length_le t₁ N P hcap₁ (ceilDiv N P - 1) 1
    norm_num at hloop
    simp only [List.length_append]
    omega
  · simp only [Moh.main]
    rw [hN₂, show (Moh.fetchPage t₂ 0).2 = [0] from rfl]
    simp only [List.length_append, List.length_cons, List.length_range',
      List.length_range, List.length_nil]
    omega
  · simp only [Moh.main, List.length_append]
    rw [hN₂]
    have hfirst : (Moh.fetchPage t₂ 0).1.docs.length ≤ min P N := by
      cases h : t₂ 0 with
      | none => simp [Moh.fetchPage, h]
      | some pg =>
        have := hcap₂ 0 pg h
        simpa [Moh.fetchPage, h] using this
    have hloop := harvestLoop_length_le t₂ N P hcap₂ (ceilDiv N P - 1) 1
    omega

/-- Witness for the amended C1 at `N = 120`, `P = 50`: part_001
`crawlAll` fetches exactly 3 pages, crawler.js `main` fetches 6 over the
whole run, and both accumulate at most 120 records. -/
theorem harvest_fetch_bound_amended_witness :
    (0 : Nat) < 120 ∧ (0 : Nat) < 50 ∧
    consServer 120 50 1 = some (pageOf 120 50 1) ∧
    pageOf 120 50 1 ≠ [] ∧
    (DC.crawlAll (consServer 120 50) 50).2.length = ceilDiv 120 50 ∧
    (pageOf 120 50 1 ++
        DC.fetchLoop (consServer 120 50) (List.range' 2 2)).length ≤ 120 ∧
    (Moh.main mohConsServer 50).2.length = 2 * ceilDiv 120 50 ∧
    (Moh.main mohConsServer 50).1.length ≤ 120 := by
  have h := harvest_fetch_bound_amended (consServer 120 50) mohConsServer
    120 50 (by decide) (by decide) (pageOf 120 50 1) rfl (by decide)
    (by decide)
    (by
      intro p l hpl
      simp only [consServer, Option.some.injEq] at hpl
      subst hpl
      exact le_of_eq (pageOf_length 120 50 p))
    rfl
    (by
      intro p pg hpg
      simp only [mohConsServer, Option.some.injEq] at hpg
      subst hpg
      rw [pageOf_length]
      simp)
  exact ⟨by decide, by decide, rfl, by decide, h.1, h.2.1 _ rfl,
    h.2.2.1, h.2.2.2⟩

theorem fetchTTHC_fst (t : Nat → Option (List Rec)) (p : Nat) :
    (ListTthc.fetchTTHC t p).1 = t p := rfl

/-- Each page index fetched by the list_tthc.js page loop comes from the
planned page range, so the loop fetches at most that many pages. -/
theorem loopPages_fetched_length_le (t : Nat → Option (List Rec))
    (lim : Option Nat) :
    ∀ (ps : List Nat) (acc : List Rec),
      (ListTthc.loopPages t lim ps acc).2.length ≤ ps.length := by
  intro ps
  induction ps with
  | nil => intro acc; simp [ListTthc.loopPages]
  | cons p ps ih =>
    intro acc
    simp only [ListTthc.loopPages, fetchTTHC_fst]
    cases htp : t p with
    | none => simpa using Nat.succ_le_succ (ih acc)
    | some pageData =>
      by_cases hemp : pageData.isEmpty = true
      · simp [hemp]
      · rw [Bool.not_eq_true] at hemp
        simp only [hemp]
        cases hl : ListTthc.limitVal lim with
        | some L =>
          by_cases hL : L ≤ acc.length + pageData.length
          · simp [hL]
          · simpa [hL] using Nat.succ_le_succ (ih (acc ++ pageData))
        | none => simpa using Nat.succ_le_succ (ih (acc ++ pageData))

/-- Counterexample to C3 as stated: a caller-supplied record limit of 0
is falsy in JavaScript, so list_tthc.js treats `--limit 0` as "no
limit": against a consistent 120-record source with page size 50 it
fetches 3 pages, not at most `ceil(0/50) = 0`. -/
theorem limit_zero_counterexample :
    (ListTthc.main (consServer 120 50) (some 0) 50).fetched = [1, 2, 3] ∧
    ceilDiv 0 50 = 0 ∧
    ¬ ((ListTthc.main (consServer 120 50) (some 0) 50).fetched.length ≤
        ceilDiv 0 50) := by
  refine ⟨rfl, rfl, ?_⟩
  intro h
  rw [show (ListTthc.main (consServer 120 50) (some 0) 50).fetched
      = [1, 2, 3] from rfl,
    show ceilDiv 0 50 = 0 from rfl] at h
  simp at h

/-- Claim C3 as amended: for every positive caller-supplied record limit
`L ≥ 1` and page size `P ≥ 1`, list_tthc.js fetches between 1 and
`ceil(L/P)` pages, and the saved result is the limit applied to the
deduplicated accumulation (truncation strictly after dedup), hence has
at most `L` records.  A supplied limit of 0 is falsy and behaves as no
limit. -/
theorem limit_fetch_bound_amended (t : Nat → Option (List Rec))
    (L P : Nat) (hL : 0 < L) (hP : 0 < P) :
    0 < (ListTthc.main t (some L) P).fetched.length ∧
    (ListTthc.main t (some L) P).fetched.length ≤ ceilDiv L P ∧
    (∀ f, (ListTthc.main t (some L) P).outcome = .saved f →
      f = (dedupByKey Rec.key
            (ListTthc.main t (some L) P).allTTHC).take L ∧
      f.length ≤ L) := by
  have hcd := one_le_ceilDiv L P hL hP
  obtain ⟨n, rfl⟩ : ∃ n, L = n + 1 := ⟨L - 1, by omega⟩
  cases ht : t 1 with
  | none =>
    have hmain : ListTthc.main t (some (n + 1)) P = ⟨.fatal, [1], []⟩ := by
      simp only [ListTthc.main, fetchTTHC_fst, ht]
    rw [hmain]
    refine ⟨by simp, by simpa using hcd, ?_⟩
    intro f hf
    simp at hf
  | some fp =>
    cases fp with
    | nil =>
      have hmain : ListTthc.main t (some (n + 1)) P = ⟨.noData, [1], []⟩ := by
        simp only [ListTthc.main, fetchTTHC_fst, ht]
      rw [hmain]
      refine ⟨by simp, by simpa using hcd, ?_⟩
      intro f hf
      simp at hf
    | cons r rest =>
      have hmain : ListTthc.main t (some (n + 1)) P =
          ⟨.saved ((dedupByKey Rec.key
              (ListTthc.loopPages t (some (n + 1))
                (List.range' 2 (ceilDiv (n + 1) P - 1)) (r :: rest)).1).take
                  (n + 1)),
            1 :: (ListTthc.loopPages t (some (n + 1))
              (List.range' 2 (ceilDiv (n + 1) P - 1)) (r :: rest)).2,
            (ListTthc.loopPages t (some (n + 1))
              (List.range' 2 (ceilDiv (n + 1) P - 1)) (r :: rest)).1⟩ := by
        simp only [ListTthc.main, fetchTTHC_fst, ht, ListTthc.limitVal,
          Option.getD_some]
      rw [hmain]
      refine ⟨by simp, ?_, ?_⟩
      · have hloop := loopPages_fetched_length_le t (some (n + 1))
          (List.range' 2 (ceilDiv (n + 1) P - 1)) (r :: rest)
        simp only [List.length_cons, List.length_range'] at hloop ⊢
        omega
      · intro f hf
        simp only [ListTthc.Outcome.saved.injEq] at hf
        subst hf
        refine ⟨rfl, ?_⟩
        rw [List.length_take]
        omega

/-- Witness for the amended C3 at `L = 10`, `P = 50` against a
consistent 120-record source: exactly one page fetch and at most 10
records in the saved result. -/
theorem limit_fetch_bound_amended_witness :
    (0 : Nat) < 10 ∧ (0 : Nat) < 50 ∧
    0 < (ListTthc.main (consServer 120 50) (some 10) 50).fetched.length ∧
    (ListTthc.main (consServer 120 50) (some 10) 50).fetched.length ≤
      ceilDiv 10 50 ∧
    ((dedupByKey Rec.key (pageOf 120 50 1)).take 10 =
        (dedupByKey Rec.key
          (ListTthc.main (consServer 120 50) (some 10) 50).allTTHC).take 10 ∧
      ((dedupByKey Rec.key (pageOf 120 50 1)).take 10).length ≤ 10) := by
  have h := limit_fetch_bound_amended (consServer 120 50) 10 50
    (by decide) (by decide)
  exact ⟨by decide, by decide, h.1, h.2.1, h.2.2 _ rfl⟩

theorem mem_fetchLoop (t : Nat → Option (List Rec)) :
    ∀ (pages : List Nat) (p : Nat) (l : List Rec) (x : Rec),
      p ∈ pages → t p = some l → x ∈ l → x ∈ DC.fetchLoop t pages := by
  intro pages
  induction pages with
  | nil => intro p l x hp _ _; simp at hp
  | cons q ps ih =>
    intro p l x hp hl hx
    simp only [DC.fetchLoop, DC.fetchPage, List.mem_append]
    rcases List.mem_cons.mp hp with h | h
    · subst h
      rw [hl]
      exact Or.inl (by simpa using hx)
    · exact Or.inr (ih p l x h hl hx)

/-- Records already accumulated survive the rest of the list_tthc.js
page loop, whatever breaks or failures happen later. -/
theorem mem_loopPages_acc (t : Nat → Option (List Rec)) (lim : Option Nat) :
    ∀ (ps : List Nat) (acc : List Rec) (x : Rec),
      x ∈ acc → x ∈ (ListTthc.loopPages t lim ps acc).1 := by
  intro ps
  induction ps with
  | nil => intro acc x hx; simpa [ListTthc.loopPages] using hx
  | cons p ps ih =>
    intro acc x hx
    simp only [ListTthc.loopPages, fetchTTHC_fst]
    cases htp : t p with
    | none => simpa using ih acc x hx
    | some pageData =>
      by_cases hemp : pageData.isEmpty = true
      · simpa [hemp] using hx
      · rw [Bool.not_eq_true] at hemp
        simp only [hemp]
        have hx' : x ∈ acc ++ pageData := List.mem_append_left _ hx
        cases hl : ListTthc.limitVal lim with
        | some L =>
          by_cases hL : L ≤ acc.length + pageData.length
          · simpa [hL] using hx'
          · simpa [hL] using ih (acc ++ pageData) x hx'
        | none => simpa using ih (acc ++ pageData) x hx'

/-! Step equations for the list_tthc.js page loop, one per control path. -/

theorem loopPages_cons_none (t : Nat → Option (List Rec)) (lim : Option Nat)
    (p : Nat) (ps : List Nat) (acc : List Rec) (h : t p = none) :
    ListTthc.loopPages t lim (p :: ps) acc =
      ((ListTthc.loopPages t lim ps acc).1,
        p :: (ListTthc.loopPages t lim ps acc).2) := by
  simp [ListTthc.loopPages, fetchTTHC_fst, h]

theorem loopPages_cons_empty (t : Nat → Option (List Rec)) (lim : Option Nat)
    (p : Nat) (ps : List Nat) (acc pageData : List Rec)
    (h : t p = some pageData) (hemp : pageData.isEmpty = true) :
    ListTthc.loopPages t lim (p :: ps) acc = (acc, [p]) := by
  simp [ListTthc.loopPages, fetchTTHC_fst, h, hemp]

theorem loopPages_cons_limit (t : Nat → Option (List Rec)) (lim : Option Nat)
    (p : Nat) (ps : List Nat) (acc pageData : List Rec) (L : Nat)
    (h : t p = some pageData) (hemp : pageData.isEmpty = false)
    (hl : ListTthc.limitVal lim = some L)
    (hL : L ≤ acc.length + pageData.length) :
    ListTthc.loopPages t lim (p :: ps) acc = (acc ++ pageData, [p]) := by
  simp [ListTthc.loopPages, fetchTTHC_fst, h, hemp, hl, hL]

theorem loopPages_cons_cont (t : Nat → Option (List Rec)) (lim : Option Nat)
    (p : Nat) (ps : List Nat) (acc pageData : List Rec)
    (h : t p = some pageData) (hemp : pageData.isEmpty = false)
    (hcont : ∀ L, ListTthc.limitVal lim = some L →
      ¬ L ≤ acc.length + pageData.length) :
    ListTthc.loopPages t lim (p :: ps) acc =
      ((ListTthc.loopPages t lim ps (acc ++ pageData)).1,
        p :: (ListTthc.loopPages t lim ps (acc ++ pageData)).2) := by
  cases hl : ListTthc.limitVal lim with
  | none => simp [ListTthc.loopPages, fetchTTHC_fst, h, hemp, hl]
  | some L =>
    simp [ListTthc.loopPages, fetchTTHC_fst, h, hemp, hl, hcont L hl]

/-- Every record of every page that the list_tthc.js loop successfully
fetched ends up in the loop's accumulated collection. -/
theorem mem_loopPages_of_fetched (t : Nat → Option (List Rec))
    (lim : Option Nat) :
    ∀ (ps : List Nat) (acc : List Rec) (p : Nat) (l : List Rec) (x : Rec),
      p ∈ (ListTthc.loopPages t lim ps acc).2 → t p = some l → x ∈ l →
      x ∈ (ListTthc.loopPages t lim ps acc).1 := by
  intro ps
  induction ps with
  | nil => intro acc p l x hp _ _; simp [ListTthc.loopPages] at hp
  | cons q ps ih =>
    intro acc p l x hp hl hx
    cases htp : t q with
    | none =>
      rw [loopPages_cons_none t lim q ps acc htp] at hp ⊢
      simp only [List.mem_cons] at hp
      rcases hp with h | h
      · subst h
        rw [htp] at hl
        exact absurd hl (by simp)
      · exact ih acc p l x h hl hx
    | some pageData =>
      by_cases hemp : pageData.isEmpty = true
      · rw [loopPages_cons_empty t lim q ps acc pageData htp hemp] at hp ⊢
        simp only [List.mem_singleton] at hp
        subst hp
        rw [htp] at hl
        have hl' : pageData = l := by simpa using hl
        have hpd : pageData = [] := List.isEmpty_iff.mp hemp
        rw [← hl', hpd] at hx
        simp at hx
      · rw [Bool.not_eq_true] at hemp
        cases hll : ListTthc.limitVal lim with
        | some L =>
          by_cases hL : L ≤ acc.length + pageData.length
          · rw [loopPages_cons_limit t lim q ps acc pageData L htp hemp
              hll hL] at hp ⊢
            simp only [List.mem_singleton] at hp
            subst hp
            rw [htp] at hl
            have hl' : pageData = l := by simpa using hl
            rw [← hl'] at hx
            exact List.mem_append_right _ hx
          · have hcont : ∀ L', ListTthc.limitVal lim = some L' →
                ¬ L' ≤ acc.length + pageData.length := by
              intro L' h'
              rw [hll] at h'
              have : L = L' := by injection h'
              subst this
              exact hL
            rw [loopPages_cons_cont t lim q ps acc pageData htp hemp
              hcont] at hp ⊢
            simp only [List.mem_cons] at hp
            rcases hp with h | h
            · subst h
              rw [htp] at hl
              have hl' : pageData = l := by simpa using hl
              rw [← hl'] at hx
              exact mem_loopPages_acc t lim ps (acc ++ pageData) x
                (List.mem_append_right _ hx)
            · exact ih (acc ++ pageData) p l x h hl hx
        | none =>
          have hcont : ∀ L', ListTthc.limitVal lim = some L' →
              ¬ L' ≤ acc.length + pageData.length := by
            intro L' h'
            rw [hll] at h'
            exact absurd h' (by simp)
          rw [loopPages_cons_cont t lim q ps acc pageData htp hemp
            hcont] at hp ⊢
          simp only [List.mem_cons] at hp
          rcases hp with h | h
          · subst h
            rw [htp] at hl
            have hl' : pageData = l := by simpa using hl
            rw [← hl'] at hx
            exact mem_loopPages_acc t lim ps (acc ++ pageData) x
              (List.mem_append_right _ hx)
          · exact ih (acc ++ pageData) p l x h hl hx

/-- Every record of every page that list_tthc.js `main` successfully
fetched is in the accumulated collection `allTTHC`. -/
theorem main_mem_allTTHC (t : Nat → Option (List Rec)) (lim : Option Nat)
    (P : Nat) :
    ∀ (p : Nat) (l : List Rec) (x : Rec),
      p ∈ (ListTthc.main t lim P).fetched → t p = some l → x ∈ l →
      x ∈ (ListTthc.main t lim P).allTTHC := by
  intro p l x hp hl hx
  cases ht : t 1 with
  | none =>
    simp only [ListTthc.main, fetchTTHC_fst, ht] at hp
    simp only [List.mem_singleton] at hp
    subst hp
    rw [ht] at hl
    exact absurd hl (by simp)
  | some fp =>
    cases fp with
    | nil =>
      simp only [ListTthc.main, fetchTTHC_fst, ht] at hp
      simp only [List.mem_singleton] at hp
      subst hp
      rw [ht] at hl
      have h0 : ([] : List Rec) = l := by simpa using hl
      rw [← h0] at hx
      simp at hx
    | cons r rest =>
      simp only [ListTthc.main, fetchTTHC_fst, ht] at hp ⊢
      simp only [List.mem_cons] at hp
      rcases hp with h | h
      · subst h
        rw [ht] at hl
        have h0 : r :: rest = l := by simpa using hl
        rw [← h0] at hx
        exact mem_loopPages_acc t lim _ (r :: rest) x hx
      · exact mem_loopPages_of_fetched t lim _ (r :: rest) p l x h hl hx

/-- Claim C4: a failing interior page is only skipped.  part_001
`crawlAll` attempts the full planned page range regardless of which
pages fail, and every record of every successfully fetched page is in
the returned collection; list_tthc.js `main` keeps every record of every
successfully fetched page in the accumulated collection, and in an
unlimited run the record's key is present in the saved deduplicated
result. -/
theorem page_failure_isolated
    (t₁ t₂ : Nat → Option (List Rec)) (P₁ P₂ : Nat) (lim : Option Nat)
    (fp : List Rec) (h1 : t₁ 1 = some fp) (hne : fp ≠ []) :
    (DC.crawlAll t₁ P₁).2 =
      1 :: List.range' 2
        (ceilDiv ((fp.head?.getD ⟨0, 0, 0⟩).amount) P₁ - 1) ∧
    (∀ p l x, p ∈ (DC.crawlAll t₁ P₁).2 → t₁ p = some l → x ∈ l →
      x ∈ (DC.crawlAll t₁ P₁).1.getD []) ∧
    (∀ p l x, p ∈ (ListTthc.main t₂ lim P₂).fetched → t₂ p = some l →
      x ∈ l → x ∈ (ListTthc.main t₂ lim P₂).allTTHC) ∧
    (∀ p l x f, p ∈ (ListTthc.main t₂ none P₂).fetched → t₂ p = some l →
      x ∈ l → (ListTthc.main t₂ none P₂).outcome = .saved f →
      x.key ∈ f.map Rec.key) := by
  obtain ⟨r, rest, rfl⟩ : ∃ r rest, fp = r :: rest := by
    cases fp with
    | nil => exact absurd rfl hne
    | cons r rest => exact ⟨r, rest, rfl⟩
  have hcrawl : DC.crawlAll t₁ P₁ =
      (some ((r :: rest) ++ DC.fetchLoop t₁
          (List.range' 2 (ceilDiv r.amount P₁ - 1))),
        1 :: List.range' 2 (ceilDiv r.amount P₁ - 1)) := by
    simp only [DC.crawlAll, DC.fetchPage, h1, DC.calculateTotalPages]
  refine ⟨?_, ?_, main_mem_allTTHC t₂ lim P₂, ?_⟩
  · rw [hcrawl]
    simp
  · intro p l x hp hl hx
    rw [hcrawl] at hp ⊢
    simp only [List.mem_cons] at hp
    simp only [Option.getD_some, List.mem_append]
    rcases hp with h | h
    · subst h
      rw [h1] at hl
      have h0 : r :: rest = l := by simpa using hl
      rw [← h0] at hx
      exact Or.inl hx
    · exact Or.inr (mem_fetchLoop t₁ _ p l x h hl hx)
  · intro p l x f hp hl hx hout
    have hxmem := main_mem_allTTHC t₂ none P₂ p l x hp hl hx
    cases ht : t₂ 1 with
    | none =>
      simp only [ListTthc.main, fetchTTHC_fst, ht] at hout
      exact absurd hout (by simp)
    | some fp₂ =>
      cases fp₂ with
      | nil =>
        simp only [ListTthc.main, fetchTTHC_fst, ht] at hout
        exact absurd hout (by simp)
      | cons r₂ rest₂ =>
        simp only [ListTthc.main, fetchTTHC_fst, ht, ListTthc.limitVal,
          Option.getD_none] at hout hxmem
        simp only [ListTthc.Outcome.saved.injEq] at hout
        subst hout
        rw [dedupByKey_map_key]
        exact (mem_firstKeys _ _).mpr (List.mem_map_of_mem Rec.key hxmem)

/-- A server for the C4 witness: a consistent 120-record source except
that the request for page 2 fails. -/
def failMidServer : Nat → Option (List Rec) :=
  fun p => if p = 2 then none else consServer 120 50 p

/-- Witness for C4: with page 2 failing, both loops still attempt pages
2 and 3, and the first record of page 3 reaches the final collections. -/
theorem page_failure_isolated_witness :
    failMidServer 1 = some (pageOf 120 50 1) ∧
    pageOf 120 50 1 ≠ [] ∧
    (DC.crawlAll failMidServer 50).2 = 1 :: List.range' 2 2 ∧
    mkRec 100 120 ∈ (DC.crawlAll failMidServer 50).1.getD [] ∧
    mkRec 100 120 ∈ (ListTthc.main failMidServer none 50).allTTHC ∧
    (mkRec 100 120).key ∈
      ((dedupByKey Rec.key
        (ListTthc.main failMidServer none 50).allTTHC).map Rec.key) := by
  have h := page_failure_isolated failMidServer failMidServer 50 50 none
    (pageOf 120 50 1) rfl (by decide)
  exact ⟨rfl, by decide, h.1,
    h.2.1 3 (pageOf 120 50 3) (mkRec 100 120) (by decide) rfl (by decide),
    h.2.2.1 3 (pageOf 120 50 3) (mkRec 100 120) (by decide) rfl (by decide),
    h.2.2.2 3 (pageOf 120 50 3) (mkRec 100 120) _ (by decide) rfl
      (by decide) rfl⟩

/-- A crawler.js server whose first page is empty yet reports a positive
total; later pages are nonempty. -/
def lyingMohServer : Nat → Option Moh.Page :=
  fun p => if p = 0 then some ⟨[], 120⟩ else some ⟨pageOf 120 50 (p + 1), 120⟩

/-- Counterexample to C8 as stated: crawler.js `main` keys off the
reported total, not first-page emptiness.  When the first page yields
zero records but reports 120 total records, the run issues five further
page fetches and ends with 70 records, not an empty collection after a
single fetch. -/
theorem empty_first_page_counterexample :
    (Moh.fetchPage lyingMohServer 0).1.docs = [] ∧
    (Moh.main lyingMohServer 50).2.length = 6 ∧
    (Moh.main lyingMohServer 50).1.length = 70 ∧
    ¬ ((Moh.main lyingMohServer 50).1 = [] ∧
        (Moh.main lyingMohServer 50).2 = [0]) := by
  refine ⟨rfl, rfl, rfl, ?_⟩
  rintro ⟨h, -⟩
  have h70 : (Moh.main lyingMohServer 50).1.length = 70 := rfl
  rw [h] at h70
  simp at h70

/-- Claim C8 as amended: a first page with zero records makes part_001
`crawlAll` and list_tthc.js `main` terminate immediately with an empty
collection after the single fetch, unconditionally; crawler.js `main`
behaves that way only when the empty first page also reports a zero
total, since it derives its page bound from `nTotal`, not from
emptiness. -/
theorem empty_first_page_amended
    (t₁ t₂ : Nat → Option (List Rec)) (t₃ : Nat → Option Moh.Page)
    (lim : Option Nat) (P₁ P₂ P₃ : Nat)
    (h₁ : t₁ 1 = some []) (h₂ : t₂ 1 = some [])
    (h₃ : ∀ pg, t₃ 0 = some pg → pg.docs = [] ∧ pg.nTotal = 0) :
    DC.crawlAll t₁ P₁ = (some [], [1]) ∧
    ListTthc.main t₂ lim P₂ = ⟨.noData, [1], []⟩ ∧
    (Moh.main t₃ P₃).1 = [] ∧ (Moh.main t₃ P₃).2 = [0] := by
  have hfirst : (Moh.fetchPage t₃ 0).1 = ⟨[], 0⟩ := by
    cases h : t₃ 0 with
    | none => simp [Moh.fetchPage, h]
    | some pg =>
      obtain ⟨hd, hn⟩ := h₃ pg h
      cases pg
      simp only at hd hn
      subst hd
      subst hn
      simp [Moh.fetchPage, h]
  have h02 : (Moh.fetchPage t₃ 0).2 = [0] := rfl
  refine ⟨?_, ?_, ?_, ?_⟩
  · simp only [DC.crawlAll, DC.fetchPage, h₁]
  · simp only [ListTthc.main, fetchTTHC_fst, h₂]
  · simp only [Moh.main, hfirst, ceilDiv_zero_left]
    simp [Moh.harvestLoop]
  · simp only [Moh.main, hfirst, h02, ceilDiv_zero_left]
    simp

/-! ## JavaScript objects as field maps

The detail-enrichment scripts build result records by object spread
(`{...decision, EXTRA: v, ...}`); a JS object is an insertion-ordered
field map, and adding a field with spread overwrites an existing key in
place or appends a new one — exactly `mapInsert`. -/

abbrev JsObj : Type := List (String × String)

/-- Reading a field of a JS object (`undefined` = `none`). -/
def jsGet (o : JsObj) (k : String) : Option String :=
  (List.find? (fun p => p.1 = k) o).map Prod.snd

/-- `{...o, k: v}`. -/
def jsSet (o : JsObj) (k v : String) : JsObj := mapInsert k v o

theorem jsGet_jsSet (k v f : String) :
    ∀ o : JsObj, jsGet (jsSet o k v) f =
      if f = k then some v else jsGet o f := by
  intro o
  induction o with
  | nil =>
    by_cases h : f = k
    · subst h
      simp [jsSet, jsGet, mapInsert, List.find?]
    · have h' : ¬ k = f := fun hh => h hh.symm
      simp [jsSet, jsGet, mapInsert, List.find?, h, h']
  | cons q o ih =>
    obtain ⟨k₁, v₁⟩ := q
    by_cases hk : k₁ = k
    · subst hk
      rw [jsSet, mapInsert_cons_self]
      by_cases h : f = k₁
      · subst h
        simp [jsGet, List.find?_cons_of_pos]
      · have h' : ¬ k₁ = f := fun hh => h hh.symm
        rw [if_neg h]
        unfold jsGet
        rw [List.find?_cons_of_neg _ (by simpa using h'),
          List.find?_cons_of_neg _ (by simpa using h')]
    · rw [jsSet, mapInsert_cons_ne hk]
      by_cases h : k₁ = f
      · have h' : ¬ f = k := fun hh => hk (h.trans hh)
        rw [if_neg h']
        unfold jsGet
        rw [List.find?_cons_of_pos _ (by simp [h]),
          List.find?_cons_of_pos _ (by simp [h])]
      · unfold jsGet
        rw [List.find?_cons_of_neg _ (by simpa using h),
          List.find?_cons_of_neg _ (by simpa using h)]
        exact ih

/-- Batches of size `m + 1` (`slice(i, i + batchSize)` with
`i += batchSize`; a batch size of 0 would loop forever in JS, so the
model takes the size as `m + 1`). -/
def chunks {α : Type} (m : Nat) : List α → List (List α)
  | [] => []
  | d :: ds => ((d :: ds).take (m + 1)) :: chunks m ((d :: ds).drop (m + 1))
  termination_by l => l.length
  decreasing_by simp [List.length_drop]; omega

theorem chunks_flatten {α : Type} (m : Nat) (l : List α) :
    (chunks m l).flatten = l := by
  have H : ∀ n (l : List α), l.length ≤ n → (chunks m l).flatten = l := by
    intro n
    induction n with
    | zero =>
      intro l hl
      have : l = [] := List.eq_nil_of_length_eq_zero (by omega)
      subst this
      simp [chunks]
    | succ n ih =>
      intro l hl
      cases l with
      | nil => simp [chunks]
      | cons d ds =>
        rw [chunks]
        rw [List.flatten_cons,
          ih ((d :: ds).drop (m + 1)) (by simp at hl ⊢; omega)]
        exact List.take_append_drop _ _
  exact H l.length l le_rfl

namespace DD

/-- The slice of decisions `crawlAllDetails` processes
(decision_details.js lines 394-396): truthy `limit` takes
`slice(startIndex, startIndex + limit)`, otherwise `slice(startIndex)`. -/
def toProcess (lim : Option Nat) (startIndex : Nat)
    (decisions : List JsObj) : List JsObj :=
  match ListTthc.limitVal lim with
  | some L => (decisions.drop startIndex).take L
  | none => decisions.drop startIndex

/-- `DecisionDetailCrawler.fetchDecisionDetails` (decision_details.js
lines 321-376): the enrichment environment stands for the five parallel
fetches plus reference-table matching; it returns either the extra
fields to merge (in order) or the thrown error's message.  On success
the extras are merged into a copy of the decision by object spread; the
catch returns `{...decision, ERROR: message}`.  The call never
rejects. -/
def fetchDecisionDetails
    (enrich : JsObj → Except String (List (String × String)))
    (decision : JsObj) : JsObj :=
  match enrich decision with
  | .ok extras => extras.foldl (fun o kv => jsSet o kv.1 kv.2) decision
  | .error msg => jsSet decision "ERROR" msg

/-- `crawlAllDetails` (decision_details.js lines 381-428): slice, then
process in batches of `batchSize = m + 1` via `Promise.all` (each batch
fully resolves before the next starts; `fetchDecisionDetails` never
rejects), appending every batch's results in order. -/
def crawlAllDetails
    (enrich : JsObj → Except String (List (String × String)))
    (m startIndex : Nat) (lim : Option Nat)
    (decisions : List JsObj) : List JsObj :=
  ((chunks m (toProcess lim startIndex decisions)).map
    (fun batch => batch.map (fetchDecisionDetails enrich))).flatten

/-- Batching is invisible in the output: `crawlAllDetails` produces
exactly the per-record enrichment of the processed slice, in order. -/
theorem crawlAllDetails_eq_map
    (enrich : JsObj → Except String (List (String × String)))
    (m startIndex : Nat) (lim : Option Nat) (decisions : List JsObj) :
    crawlAllDetails enrich m startIndex lim decisions =
      (toProcess lim startIndex decisions).map
        (fetchDecisionDetails enrich) := by
  unfold crawlAllDetails
  rw [← List.map_flatten, chunks_flatten]

end DD

namespace VanBan

/-- The detail URL part_000 computes for a raw document (line 223). -/
def detailUrl (doc : JsObj) : String :=
  "https://vanban.chinhphu.vn/?pageid=" ++ (jsGet doc "PAGE_ID").getD "" ++
    "&docid=" ++ (jsGet doc "DOC_ID").getD ""

/-- One iteration of the Phase-1 loop of part_000 (lines 220-258); the
environment stands for `fetchHTML` + `parseDetailHTML` and returns the
freshly parsed detail object or the thrown error's message.  On success
the parsed object (which carries only the parsed fields plus `PAGE_ID`,
`DOC_ID`, `DETAIL_URL`) is pushed; the catch pushes the placeholder
`{PAGE_ID, DOC_ID, DETAIL_URL, ERROR}` — it does not copy the other
fields of the original record. -/
def phase1Step (fetchParse : JsObj → Except String JsObj) (doc : JsObj) :
    JsObj :=
  match fetchParse doc with
  | .ok detailData => detailData
  | .error msg =>
      [("PAGE_ID", (jsGet doc "PAGE_ID").getD ""),
       ("DOC_ID", (jsGet doc "DOC_ID").getD ""),
       ("DETAIL_URL", detailUrl doc),
       ("ERROR", msg)]

/-- The slice Phase 1 processes (part_000 line 205): truthy `--limit`
takes a prefix. -/
def sliced (lim : Option Nat) (rawResults : List JsObj) : List JsObj :=
  match ListTthc.limitVal lim with
  | some L => rawResults.take L
  | none => rawResults

/-- Phase 1 of `main` (part_000 lines 204-258): one `detailedResults`
entry per processed document, in order, success or failure. -/
def phase1 (fetchParse : JsObj → Except String JsObj) (lim : Option Nat)
    (rawResults : List JsObj) : List JsObj :=
  (sliced lim rawResults).map (phase1Step fetchParse)

end VanBan

/-- Witness for the amended C8: servers whose first page is empty (and,
for crawler.js, reports a zero total). -/
theorem empty_first_page_amended_witness :
    ((fun _ : Nat => some ([] : List Rec)) 1 = some []) ∧
    (DC.crawlAll (fun _ => some []) 50 = (some [], [1]) ∧
      ListTthc.main (fun _ => some []) none 1000 = ⟨.noData, [1], []⟩ ∧
      (Moh.main (fun _ => some ⟨[], 0⟩) 50).1 = [] ∧
      (Moh.main (fun _ => some ⟨[], 0⟩) 50).2 = [0]) := by
  refine ⟨rfl, ?_⟩
  exact empty_first_page_amended (fun _ => some []) (fun _ => some [])
    (fun _ => some ⟨[], 0⟩) none 50 1000 50 rfl rfl
    (fun pg h => by
      have h' : (⟨[], 0⟩ : Moh.Page) = pg := by injection h
      rw [← h']
      exact ⟨rfl, rfl⟩)

/-- Counterexample to C9 as stated: in part_000's Phase 1, the failed
document's placeholder keeps only `PAGE_ID`, `DOC_ID`, `DETAIL_URL` and
`ERROR`; the original field `CODE` is dropped, not copied unchanged. -/
theorem enrichment_failure_drops_fields_counterexample :
    jsGet [("PAGE_ID", "27"), ("DOC_ID", "99"), ("CODE", "X1")] "CODE" =
      some "X1" ∧
    jsGet (VanBan.phase1Step (fun _ => .error "HTTP 500")
        [("PAGE_ID", "27"), ("DOC_ID", "99"), ("CODE", "X1")]) "CODE" =
      none ∧
    jsGet (VanBan.phase1Step (fun _ => .error "HTTP 500")
        [("PAGE_ID", "27"), ("DOC_ID", "99"), ("CODE", "X1")]) "ERROR" =
      some "HTTP 500" :=
  ⟨rfl, rfl, rfl⟩

/-- Claim C9 as amended: both enrichment passes produce exactly one
output record per processed input record and discard none.  When a
record's enrichment fails, decision_details.js `fetchDecisionDetails`
returns `{...decision, ERROR: message}` — every field other than `ERROR`
unchanged; part_000's Phase 1 instead pushes a placeholder retaining
only `PAGE_ID`, `DOC_ID`, a recomputed `DETAIL_URL` and the `ERROR`
field, dropping the record's other fields. -/
theorem enrichment_failure_amended
    (enrich : JsObj → Except String (List (String × String)))
    (fetchParse : JsObj → Except String JsObj)
    (d doc : JsObj) (msg msg₂ : String) (m startIndex : Nat)
    (lim lim₂ : Option Nat) (decisions raws : List JsObj)
    (he : enrich d = .error msg) (hf : fetchParse doc = .error msg₂) :
    DD.fetchDecisionDetails enrich d = jsSet d "ERROR" msg ∧
    (∀ f, ¬ f = "ERROR" →
      jsGet (DD.fetchDecisionDetails enrich d) f = jsGet d f) ∧
    jsGet (DD.fetchDecisionDetails enrich d) "ERROR" = some msg ∧
    DD.crawlAllDetails enrich m startIndex lim decisions =
      (DD.toProcess lim startIndex decisions).map
        (DD.fetchDecisionDetails enrich) ∧
    (VanBan.phase1 fetchParse lim₂ raws).length =
      (VanBan.sliced lim₂ raws).length ∧
    jsGet (VanBan.phase1Step fetchParse doc) "ERROR" = some msg₂ ∧
    jsGet (VanBan.phase1Step fetchParse doc) "PAGE_ID" =
      some ((jsGet doc "PAGE_ID").getD "") := by
  have hd : DD.fetchDecisionDetails enrich d = jsSet d "ERROR" msg := by
    unfold DD.fetchDecisionDetails
    rw [he]
  have hph : VanBan.phase1Step fetchParse doc =
      [("PAGE_ID", (jsGet doc "PAGE_ID").getD ""),
       ("DOC_ID", (jsGet doc "DOC_ID").getD ""),
       ("DETAIL_URL", VanBan.detailUrl doc),
       ("ERROR", msg₂)] := by
    unfold VanBan.phase1Step
    rw [hf]
  refine ⟨hd, ?_, ?_,
    DD.crawlAllDetails_eq_map enrich m startIndex lim decisions,
    by simp [VanBan.phase1], ?_, ?_⟩
  · intro f hfE
    rw [hd, jsGet_jsSet]
    rw [if_neg hfE]
  · rw [hd, jsGet_jsSet]
    simp
  · rw [hph]
    unfold jsGet
    rw [List.find?_cons_of_neg _ (by simp),
      List.find?_cons_of_neg _ (by simp),
      List.find?_cons_of_neg _ (by simp),
      List.find?_cons_of_pos _ (by simp)]
    rfl
  · rw [hph]
    unfold jsGet
    rw [List.find?_cons_of_pos _ (by simp)]
    rfl

/-- Witness for the amended C9 at concrete failing enrichments: the
decision keeps its `CODE` field plus an `ERROR` field; batching yields
one output per input; the part_000 placeholder carries the error. -/
theorem enrichment_failure_amended_witness :
    ((fun _ : JsObj =>
        (.error "boom" : Except String (List (String × String))))
      [("ID", "5"), ("CODE", "X")] = .error "boom") ∧
    DD.fetchDecisionDetails (fun _ => .error "boom")
        [("ID", "5"), ("CODE", "X")] =
      jsSet [("ID", "5"), ("CODE", "X")] "ERROR" "boom" ∧
    jsGet (DD.fetchDecisionDetails (fun _ => .error "boom")
        [("ID", "5"), ("CODE", "X")]) "CODE" =
      jsGet [("ID", "5"), ("CODE", "X")] "CODE" ∧
    jsGet (DD.fetchDecisionDetails (fun _ => .error "boom")
        [("ID", "5"), ("CODE", "X")]) "ERROR" = some "boom" ∧
    DD.crawlAllDetails (fun _ => .error "boom") 4 0 none
        [[("ID", "5"), ("CODE", "X")]] =
      (DD.toProcess none 0 [[("ID", "5"), ("CODE", "X")]]).map
        (DD.fetchDecisionDetails (fun _ => .error "boom")) ∧
    jsGet (VanBan.phase1Step (fun _ => .error "HTTP 500")
        [("PAGE_ID", "27"), ("DOC_ID", "99"), ("CODE", "X1")]) "ERROR" =
      some "HTTP 500" := by
  have h := enrichment_failure_amended (fun _ => .error "boom")
    (fun _ => .error "HTTP 500") [("ID", "5"), ("CODE", "X")]
    [("PAGE_ID", "27"), ("DOC_ID", "99"), ("CODE", "X1")] "boom"
    "HTTP 500" 4 0 none none [[("ID", "5"), ("CODE", "X")]]
    [[("PAGE_ID", "27"), ("DOC_ID", "99"), ("CODE", "X1")]] rfl rfl
  exact ⟨rfl, h.1, h.2.1 "CODE" (by decide), h.2.2.1, h.2.2.2.1,
    h.2.2.2.2.2.1⟩
